import Mathlib

/-!
Shallow embedding of the postconfirm milter core
(`src/milter/processor.py` and `src/sender/handler_db.py`) together with
theorems settling the specification claims about it.

Python strings are modelled as Lean `String`s (manipulated through their
`List Char` data), SQL tables as lists of row structures, JSON text columns
through a small executable JSON codec covering the value shapes this code
reads and writes (null, booleans, numbers, escape-free strings, arrays of
such strings), and Python exceptions as `Except`/`Option` results.
-/

namespace Postconfirm

/-- Characters treated as whitespace by Python `str.strip` / `str.lstrip`. -/
def isPySpace (c : Char) : Bool :=
  c = ' ' || c = '\t' || c = '\n' || c = '\r' || c = '\x0b' || c = '\x0c'

/-- Python `str.lstrip()`: drop leading whitespace. -/
def pyLstrip (s : String) : String :=
  ⟨s.data.dropWhile isPySpace⟩

/-- Python `str.strip()`: drop leading and trailing whitespace. -/
def pyStrip (s : String) : String :=
  ⟨((s.data.dropWhile isPySpace).reverse.dropWhile isPySpace).reverse⟩

/-- Does the character list start with the given pattern (exact characters)? -/
def startsWithChars : List Char → List Char → Bool
  | _, [] => true
  | [], _ :: _ => false
  | c :: cs, p :: ps => c = p && startsWithChars cs ps

/-- Does the haystack contain the pattern as a contiguous substring?
This is `re.search` of a regex consisting of literal characters only. -/
def hasSub : List Char → List Char → Bool
  | _, [] => true
  | [], _ :: _ => false
  | c :: cs, p :: ps => startsWithChars (c :: cs) (p :: ps) || hasSub cs (p :: ps)

/-- JSON values of the shapes the postconfirm database columns can hold:
null, booleans, numbers (only their zero-ness is retained, which is all
Python truthiness needs), escape-free strings, and arrays of such strings. -/
inductive JVal where
  | jnull : JVal
  | jbool (b : Bool) : JVal
  | jnum (isZero : Bool) : JVal
  | jstr (s : String) : JVal
  | jarr (xs : List String) : JVal
deriving DecidableEq

/-- JSON insignificant whitespace. -/
def isJsonWs (c : Char) : Bool :=
  c = ' ' || c = '\t' || c = '\n' || c = '\r'

/-- Skip JSON whitespace. -/
def skipWs (cs : List Char) : List Char :=
  cs.dropWhile isJsonWs

/-- Parse the remainder of a JSON string after the opening quote.
Escape sequences are rejected (the refs and recipients this system stores
never contain them). -/
def parseJStrAux : List Char → List Char → Option (String × List Char)
  | [], _ => none
  | c :: cs, acc =>
    if c = '"' then some (⟨acc.reverse⟩, cs)
    else if c = '\\' then none
    else parseJStrAux cs (c :: acc)

/-- Parse the elements of a JSON array of strings, after the opening
bracket and any leading whitespace, given fuel. -/
def parseArrElems : Nat → List Char → List String → Option (List String × List Char)
  | 0, _, _ => none
  | fuel + 1, cs, acc =>
    match skipWs cs with
    | '"' :: rest =>
      match parseJStrAux rest [] with
      | none => none
      | some (s, rest1) =>
        match skipWs rest1 with
        | ']' :: rest2 => some ((s :: acc).reverse, rest2)
        | ',' :: rest2 => parseArrElems fuel rest2 (s :: acc)
        | _ => none
    | _ => none

/-- Split a leading run of decimal digits. -/
def splitDigits (cs : List Char) : List Char × List Char :=
  (cs.takeWhile Char.isDigit, cs.dropWhile Char.isDigit)

/-- Parse a JSON number after an optional leading minus sign, enforcing
JSON's grammar (no leading zeros, a fraction and exponent need digits).
Returns whether the number is zero, and the rest of the input. -/
def parseNumCore (cs : List Char) : Option (Bool × List Char) :=
  let (ds, rest) := splitDigits cs
  if ds.isEmpty then none
  else if ds.length > 1 && ds.headD '0' = '0' then none
  else
    let (fs, rest2) :=
      match rest with
      | '.' :: cs2 =>
        let (fs, r) := splitDigits cs2
        if fs.isEmpty then ([], '.' :: cs2) else (fs, r)
      | _ => ([], rest)
    match rest with
    | '.' :: cs2 =>
      if (splitDigits cs2).1.isEmpty then none
      else parseNumExp (ds.all (· = '0') && fs.all (· = '0')) rest2
    | _ => parseNumExp (ds.all (· = '0')) rest2
where
  /-- Parse an optional exponent part; the exponent never affects zero-ness. -/
  parseNumExp (isZero : Bool) (cs : List Char) : Option (Bool × List Char) :=
    match cs with
    | 'e' :: cs2 => parseNumDigits isZero cs2
    | 'E' :: cs2 => parseNumDigits isZero cs2
    | _ => some (isZero, cs)
  /-- Parse the digits of an exponent, after an optional sign. -/
  parseNumDigits (isZero : Bool) (cs : List Char) : Option (Bool × List Char) :=
    let cs3 := match cs with
      | '+' :: r => r
      | '-' :: r => r
      | _ => cs
    let (es, rest3) := splitDigits cs3
    if es.isEmpty then none else some (isZero, rest3)

/-- Parse one JSON value at the head of the input. -/
def jsonParseVal (cs : List Char) : Option (JVal × List Char) :=
  match cs with
  | '"' :: rest =>
    match parseJStrAux rest [] with
    | none => none
    | some (s, r) => some (.jstr s, r)
  | '[' :: rest =>
    match skipWs rest with
    | ']' :: r2 => some (.jarr [], r2)
    | r1 =>
      match parseArrElems r1.length r1 [] with
      | none => none
      | some (xs, r2) => some (.jarr xs, r2)
  | 'n' :: 'u' :: 'l' :: 'l' :: rest => some (.jnull, rest)
  | 't' :: 'r' :: 'u' :: 'e' :: rest => some (.jbool true, rest)
  | 'f' :: 'a' :: 'l' :: 's' :: 'e' :: rest => some (.jbool false, rest)
  | '-' :: rest =>
    match parseNumCore rest with
    | none => none
    | some (z, r) => some (.jnum z, r)
  | c :: _ =>
    if c.isDigit then
      match parseNumCore cs with
      | none => none
      | some (z, r) => some (.jnum z, r)
    else none
  | [] => none

/-- Python `json.loads` on the supported subset: `none` models a raised
`json.JSONDecodeError`. -/
def jsonLoads (s : String) : Option JVal :=
  match jsonParseVal (skipWs s.data) with
  | none => none
  | some (v, rest) => if skipWs rest = [] then some v else none

/-- Python `json.dumps` applied to a plain string without quotes,
backslashes or control characters (the references this system encodes are
plain tokens): it wraps the text in double quotes. -/
def jsonDumpsStr (s : String) : String :=
  "\"" ++ s ++ "\""

/-!
`src/milter/processor.py`
-/

/-- Search of the default `bulk_regex` pattern `(junk|list|bulk|auto_reply)`
(`re.search`, compiled without `re.IGNORECASE`): the alternation of four
literals matches iff one of them occurs as a substring. -/
def bulkSearch (s : String) : Bool :=
  hasSub s.data "junk".data || hasSub s.data "list".data ||
    hasSub s.data "bulk".data || hasSub s.data "auto_reply".data

/-- Search of the default `auto_submitted_regex` pattern `^auto-`
(`re.search`, compiled without `re.IGNORECASE`): anchored at the start. -/
def autoSearch (s : String) : Bool :=
  startsWithChars s.data "auto-".data

/-- One step of the header loop in `message_should_be_dropped`: does this
header's compiled matcher fire on its leading-whitespace-trimmed value?
Only the two default matchers, keyed `Precedence` and `Auto-Submitted`,
are in the lazily filled matcher table. -/
def headerFires : String × String → Bool
  | (name, entry) =>
    if name = "Precedence" then bulkSearch (pyLstrip entry)
    else if name = "Auto-Submitted" then autoSearch (pyLstrip entry)
    else false

/-- `message_should_be_dropped(headers)` (processor.py lines 21-35), with
the matcher table at its defaults: the loop returns `False` as soon as a
matcher fires on a header and `True` when none fired. -/
def message_should_be_dropped : List (String × String) → Bool
  | [] => true
  | h :: rest => if headerFires h then false else message_should_be_dropped rest

/-- `get_challenge_subject(reference)` (processor.py lines 47-49):
the f-string `" Confirm: ::{reference}"` with its leading space. -/
def get_challenge_subject (reference : String) : String :=
  " Confirm: ::" ++ reference

/-- Case-insensitive literal matching used by a regex compiled with
`re.IGNORECASE`: strip the pattern characters off the input, comparing
lowercased. -/
def stripLitCI : List Char → List Char → Option (List Char)
  | [], cs => some cs
  | _ :: _, [] => none
  | p :: ps, c :: cs => if c.toLower = p.toLower then stripLitCI ps cs else none

/-- The character class `[a-f0-9]` under `re.IGNORECASE` (which also lets
it match `A`-`F`). -/
def isHexCI (c : Char) : Bool :=
  ('a' ≤ c && c ≤ 'f') || ('A' ≤ c && c ≤ 'F') || c.isDigit

/-- `get_challenge_reference_from_subject(subject)` (processor.py lines
90-95): `re.match(r"Confirm: ::([a-f0-9]+)", subject, re.IGNORECASE)` is
anchored at the very start of `subject`; on a match the greedy group 1 is
the maximal run of hex characters after the literal, and the code returns
`match[1]`, else `None`. -/
def get_challenge_reference_from_subject (subject : String) : Option String :=
  match stripLitCI "Confirm: ::".data subject.data with
  | none => none
  | some rest =>
    let hexRun := rest.takeWhile isHexCI
    if hexRun.isEmpty then none else some ⟨hexRun⟩

/-- The group-1 alternatives of `(.*<)?` in `cleanup_mail`'s regex: `.`
does not match a newline, so `.*<` can only end at a `<` lying in the
first line of the input. This returns the suffix following each such
`<`, in the order a greedy `.*` backtracks through them — the last
first-line `<` first — with the group-absent alternative (the whole
input) appended by the caller. -/
def restsAfterLt : List Char → List (List Char)
  | [] => []
  | c :: cs =>
    if c = '\n' then []
    else if c = '<' then restsAfterLt cs ++ [cs]
    else restsAfterLt cs

/-- One attempt of the regex tail `([^>]*)(>.*)?$` on the text after a
chosen group-1 alternative: the greedy group 2 is the leading run of
non-`>` characters (newlines included, `[^>]` matches them); then either
the input is exhausted (group 3 absent, `$` holds), or a `>` follows and
`(>.*)$` must reach the end of the input, which the newline-free `.*`
can do only when no newline remains. A shorter group 2 exposes a
non-`>` character, so no further backtracking can succeed. -/
def regexAttempt (rest : List Char) : Option (List Char) :=
  match rest.dropWhile (fun c => c ≠ '>') with
  | [] => some (rest.takeWhile fun c => c ≠ '>')
  | _ :: r => if '\n' ∈ r then none else some (rest.takeWhile fun c => c ≠ '>')

/-- `cleanup_mail(email)` (processor.py lines 98-104):
`re.match(r'^(.*<)?([^>]*)(>.*)?$', email.strip())` — neither DOTALL nor
MULTILINE, and the stripped input has no trailing newline, so `$` is the
end of the input. The engine tries the group-1 alternatives from the
last first-line `<` backwards and then group 1 absent, returning the
first alternative whose tail attempt succeeds; the function returns its
group 2. When every alternative fails (a `>` is followed by a newline
on every candidate) `match` is `None` and the original, unstripped
`email` is returned. -/
def cleanup_mail (email : String) : String :=
  let t := pyStrip email
  match (restsAfterLt t.data ++ [t.data]).findSome? regexAttempt with
  | some g2 => ⟨g2⟩
  | none => email

/-- `LINE_SEP` (processor.py line 13). -/
def LINE_SEP : String := "\n"

/-- `form_header(header)` (processor.py lines 52-53). -/
def form_header (h : String × String) : String :=
  h.1 ++ ":" ++ h.2

/-- `reform_email_text(headers, body_chunks)` (processor.py lines 56-57). -/
def reform_email_text (headers : List (String × String)) (body_chunks : List String) : String :=
  String.intercalate LINE_SEP (headers.map form_header) ++ LINE_SEP ++ LINE_SEP
    ++ String.join body_chunks

/-- The invocation `mailer.sendmail([sender.email], challenge_message)`
made by `send_challenge`: exactly two positional arguments. -/
structure SendmailTwoArgCall where
  firstArg : List String
  secondArg : String
deriving DecidableEq

/-- `send_challenge(sender, subject, recipients, challenge_id, reference)`
(processor.py lines 60-87). The mustache rendering of the external
template file is an external collaborator and enters as the already
rendered text `message_text`. The function builds the `From`/`To`/
`Subject` headers (each f-string value carrying a leading space, the
subject via `get_challenge_subject`), reforms the message text, and calls
`mailer.sendmail` with the two positional arguments shown; `recipients[0]`
raises `IndexError` on an empty list, modelled by `none`. -/
def send_challenge (senderEmail : String) (recipients : List String)
    (reference : String) (message_text : String) : Option SendmailTwoArgCall :=
  match recipients with
  | [] => none
  | r0 :: _ =>
    let headers := [("From", " " ++ r0), ("To", " " ++ senderEmail),
                    ("Subject", get_challenge_subject reference)]
    some ⟨[senderEmail], reform_email_text headers [message_text]⟩

/-- The three verdict values a milter decider can return. -/
inductive Verdict where
  | accept
  | reject
  | discard
deriving DecidableEq

/-- Python exceptions observed by the embedded code. -/
inductive PyErr where
  | typeError
  | nameError
deriving DecidableEq

/-- `recipient_requires_challenge(recipients)` (processor.py lines 16-18):
the FIXME stub returns its argument unchanged. -/
def recipient_requires_challenge (recipients : List String) : List String :=
  recipients

/-- `handle(session)` (processor.py lines 155-246), driven by the
envelope data the session supplies. It normalizes the envelope sender
(the `Sender` object construction `get_sender` lives outside `src/` and
carries no effect here), normalizes the recipients, computes
`challenge_recipients`, and then executes line 196,
`(mail_subject, mail_headers) = extract_headers(session)`: but
`extract_headers` is an `async def` invoked without `await`, so the
right-hand side is a coroutine object and tuple-unpacking it raises
`TypeError` on every input. -/
def handle (envelopeFrom : String) (envelopeRecipients : List String) :
    Except PyErr Verdict :=
  let mail_from := cleanup_mail envelopeFrom
  let mail_recipients := envelopeRecipients.map cleanup_mail
  let challenge_recipients := recipient_requires_challenge mail_recipients
  let _ := (mail_from, challenge_recipients)
  Except.error PyErr.typeError

/-!
`src/sender/handler_db.py`
-/

/-- A Python value a decoded `ref` column can evaluate to: the string case
arises when the column text is a JSON string, the list case from a JSON
array or from the legacy bare-string fallback, and booleans/numbers from
the remaining JSON literals. -/
inductive PyRefs where
  | vstr (s : String)
  | vlist (l : List String)
  | vbool (b : Bool)
  | vnum (isZero : Bool)
deriving DecidableEq

/-- The value `json.loads` hands back, as the content of the `refs`
variable: JSON `null` becomes Python `None` (modelled `none`). -/
def jvalToRefs : JVal → Option PyRefs
  | .jnull => none
  | .jbool b => some (.vbool b)
  | .jnum z => some (.vnum z)
  | .jstr s => some (.vstr s)
  | .jarr xs => some (.vlist xs)

/-- `HandlerDb._extract_refs(ref_entry)` (handler_db.py lines 93-103):
try `json.loads`; on a decode error a truthy entry is wrapped as a
single-element list, otherwise `refs` stays `None`. -/
def _extract_refs (ref_entry : String) : Option PyRefs :=
  match jsonLoads ref_entry with
  | some v => jvalToRefs v
  | none => if ref_entry ≠ "" then some (.vlist [ref_entry]) else none

/-- Python truthiness of a decoded refs value. -/
def pyTruthy : PyRefs → Bool
  | .vstr s => s ≠ ""
  | .vlist l => !l.isEmpty
  | .vbool b => b
  | .vnum z => !z

/-- Python `set(x)` on a refs value: a string yields its set of
characters (as one-character strings), a list its set of elements;
`set()` of a boolean or a number raises `TypeError`, modelled `none`. -/
def pyToSet : PyRefs → Option (List String)
  | .vstr s => some ((s.data.map fun c => String.mk [c]).dedup)
  | .vlist l => some l.dedup
  | .vbool _ => none
  | .vnum _ => none

/-- `list(set(refs).union(static_refs))` (handler_db.py line 86): the set
union of the two iterables, or a raised `TypeError` when either operand
is not iterable. Python's set order is arbitrary; the union list is
canonicalized here and the theorems below only use its membership. -/
def pySetUnionRefs (a b : PyRefs) : Option PyRefs :=
  match pyToSet a, pyToSet b with
  | some x, some y => some (.vlist (x.union y))
  | _, _ => none

/-- One row of the `senders` / `senders_static` tables: `ref` is the raw
text column (`none` for SQL NULL). -/
structure SendersRow where
  sender : String
  stype : String
  action : String
  ref : Option String
deriving DecidableEq

/-- The two sender tables. -/
structure SendersDb where
  senders : List SendersRow
  senders_static : List SendersRow
deriving DecidableEq

/-- `SELECT action, ref FROM <table> WHERE sender=%s AND type='E'`
followed by `fetchone()`: the first matching row, if any. -/
def fetchoneE (rows : List SendersRow) (sender : String) : Option SendersRow :=
  rows.find? fun r => r.sender = sender && r.stype = "E"

/-- Python truthiness of a nullable text column. -/
def colTruthy : Option String → Bool
  | none => false
  | some t => t ≠ ""

/-- `HandlerDb.get_action_for_sender(sender)` (handler_db.py lines
36-91): read the dynamic and the static `(sender, 'E')` rows; the dynamic
action wins when truthy, then the static one, else `"unknown"`; a truthy
dynamic ref column is decoded into `refs`, a truthy static ref column is
decoded and either substituted (when `refs is None`), ignored (when
falsy), or set-unioned into `refs`. The union raises `TypeError` when a
decoded operand is not iterable, which propagates (modelled `.error`). -/
def get_action_for_sender (db : SendersDb) (sender : String) :
    Except Unit (String × Option PyRefs) :=
  let result := fetchoneE db.senders sender
  let static_result := fetchoneE db.senders_static sender
  let action1 : String :=
    match result with
    | some row => row.action
    | none => ""
  let refs1 : Option PyRefs :=
    match result with
    | some row => if colTruthy row.ref then _extract_refs (row.ref.getD "") else none
    | none => none
  let action2 : String :=
    match static_result with
    | some srow => if action1 = "" then srow.action else action1
    | none => action1
  let refs2 : Except Unit (Option PyRefs) :=
    match static_result with
    | none => .ok refs1
    | some srow =>
      if colTruthy srow.ref then
        let static_refs := _extract_refs (srow.ref.getD "")
        match refs1, static_refs with
        | none, _ => .ok static_refs
        | some rv, none => .ok (some rv)
        | some rv, some sv =>
          if pyTruthy sv then
            match pySetUnionRefs rv sv with
            | some u => .ok (some u)
            | none => .error ()
          else .ok (some rv)
      else .ok refs1
  match refs2 with
  | .error e => .error e
  | .ok r => .ok (if action2 = "" then "unknown" else action2, r)

/-- Outcome of the database calls inside `set_action_for_sender`,
modelling where an exception can be raised. -/
inductive DbOutcome where
  | ok
  | raiseExec
  | raiseCommit
deriving DecidableEq

/-- The effect of the `INSERT ... ON CONFLICT (sender) DO UPDATE SET
action=...` statement of `set_action_for_sender` once committed: on a
conflict with an existing row for the sender only `action` is updated
(the stored `ref` is left as it was); otherwise a fresh `('E',
'postconfirm')` row carrying the encoded ref is appended. -/
def upsertSenders (tbl : List SendersRow) (sender action : String)
    (encodedRef : Option String) : List SendersRow :=
  if tbl.any fun r => r.sender = sender then
    tbl.map fun r => if r.sender = sender then { r with action := action } else r
  else
    tbl ++ [⟨sender, "E", action, encodedRef⟩]

/-- `HandlerDb.set_action_for_sender(sender, action, ref)` (handler_db.py
lines 130-155): encode `ref` as `json.dumps(ref) if ref else None`, then
execute the upsert and commit inside `try`; any exception from either is
caught (`except Exception`), logged and turned into `False` with the
transaction never committed, so the table is unchanged. -/
def set_action_for_sender (tbl : List SendersRow) (sender action ref : String)
    (out : DbOutcome) : Bool × List SendersRow :=
  let encoded_ref : Option String := if ref ≠ "" then some (jsonDumpsStr ref) else none
  match out with
  | .raiseExec => (false, tbl)
  | .raiseCommit => (false, tbl)
  | .ok => (true, upsertSenders tbl sender action encoded_ref)

/-- One row of the `stash` / `stash_static` tables: `recipients` is the
raw JSON text column. -/
structure StashRow where
  id : Nat
  sender : String
  recipients : String
  message : String
deriving DecidableEq

/-- The two stash tables. -/
structure StashDb where
  stash : List StashRow
  stash_static : List StashRow
deriving DecidableEq

/-- Which of the two stash tables a row came from. -/
inductive StashTag where
  | dyn
  | stat
deriving DecidableEq

/-- Project the table named by a tag. -/
def tableOf : StashTag → StashDb → List StashRow
  | .dyn, db => db.stash
  | .stat, db => db.stash_static

/-- `SELECT id, recipients, message FROM <table> WHERE sender=%s`: the
matching rows. The query has no ORDER BY, so the database may hand them
back in any order; theorems quantify over a permutation of this list. -/
def stashSelect (rows : List StashRow) (sender : String) : List StashRow :=
  rows.filter fun r => r.sender = sender

/-- `DELETE FROM <table> WHERE id=%s` followed by `commit()`. -/
def applyDel (db : StashDb) : Option (StashTag × Nat) → StashDb
  | none => db
  | some (.dyn, i) => { db with stash := db.stash.filter fun r => r.id ≠ i }
  | some (.stat, i) => { db with stash_static := db.stash_static.filter fun r => r.id ≠ i }

/-- The pair a stash row is yielded as: `(json.loads(recipients),
message)`. -/
def toYieldRow (r : StashRow) : JVal × String :=
  ((jsonLoads r.recipients).getD JVal.jnull, r.message)

/-- The generator protocol of `unstash_messages_for_sender` (handler_db.py
lines 182-240), small-step. `items` are the rows the two SELECTs returned
(tagged with their table), `pending` is the row yielded on the previous
step whose DELETE runs when the consumer asks for the next item, and
`budget` is how many times the consumer pulls from the generator. Each
pull first performs the pending delete, then either ends (no rows left),
ends silently when `json.loads(recipients)` raises (the `except
Exception` clause swallows it), or yields the decoded pair. -/
def genRun : List (StashTag × StashRow) → Option (StashTag × Nat) → Nat → StashDb →
    List (JVal × String) × StashDb
  | _, _, 0, db => ([], db)
  | items, pending, b + 1, db =>
    let db1 := applyDel db pending
    match items with
    | [] => ([], db1)
    | (tag, r) :: rest =>
      match jsonLoads r.recipients with
      | none => ([], db1)
      | some v =>
        let (ys, db2) := genRun rest (some (tag, r.id)) b db1
        ((v, r.message) :: ys, db2)

/-- `HandlerDb.unstash_messages_for_sender(sender)` consumed for `budget`
pulls: the dynamic SELECT's rows (in the order `dynSel` the database
returned them) are iterated first, then the static SELECT's rows
(`statSel`); each row is deleted from its table one pull after it was
yielded. -/
def unstash_messages_for_sender (db : StashDb) (dynSel statSel : List StashRow)
    (budget : Nat) : List (JVal × String) × StashDb :=
  genRun ((dynSel.map fun r => (StashTag.dyn, r)) ++ (statSel.map fun r => (StashTag.stat, r)))
    none budget db

end Postconfirm

deriving instance DecidableEq for Except

namespace Postconfirm

/-!
Claim-side specification functions. These follow the wording of the
specification claims (not the source) and are compared against the
embedded code.
-/

/-- The lowercase hex alphabet `[a-f0-9]` of the references this system
generates. -/
def isLowerHex (c : Char) : Bool :=
  ('a' ≤ c && c ≤ 'f') || c.isDigit

/-- The list of references a well-formed ref column text denotes: the
members of the JSON array, or the legacy bare token itself. -/
def decodeTextRefs (t : String) : List String :=
  match jsonLoads t with
  | some (.jarr xs) => xs
  | _ => [t]

/-- Claim-side pattern matching for C4: a pattern row of type `'P'`
matches a sender when `re.match(pattern, sender)` succeeds; for
regex-metacharacter-free patterns that is exactly a match at the start of
the sender. -/
def patternRowMatches (row : SendersRow) (sender : String) : Bool :=
  row.stype = "P" && startsWithChars sender.data row.sender.data

/-- Claim-side decode of one ref column into a list of references. -/
def decodeRefsList (row : Option SendersRow) : List String :=
  match row with
  | none => []
  | some r =>
    match r.ref with
    | none => []
    | some t => if t = "" then [] else decodeTextRefs t

/-- The lookup C4 claims: dynamic action if a dynamic row exists, else
static, else the first matching pattern rule's action, else `"unknown"`;
refs are the union of the decoded dynamic and static refs. -/
def get_action_claimed_spec (db : SendersDb) (sender : String) : String × List String :=
  let dynRow := fetchoneE db.senders sender
  let statRow := fetchoneE db.senders_static sender
  let action :=
    match dynRow with
    | some r => r.action
    | none =>
      match statRow with
      | some r => r.action
      | none =>
        match (db.senders ++ db.senders_static).find? (patternRowMatches · sender) with
        | some r => r.action
        | none => "unknown"
  (action, (decodeRefsList dynRow).union (decodeRefsList statRow))

/-- A ref column text is well formed when it is a JSON array of
escape-free strings, or a legacy bare token over the lowercase hex
alphabet (on which the JSON codec above agrees exactly with Python's). -/
def refColOk (t : String) : Bool :=
  match jsonLoads t with
  | some (.jarr _) => true
  | some _ => false
  | none => t.data.all isLowerHex

/-- A senders row is well formed when its ref column is NULL, empty, or
well formed text. -/
def rowRefOk (r : SendersRow) : Bool :=
  match r.ref with
  | none => true
  | some t => t = "" || refColOk t

/-- A senders store is well formed when every ref column in both tables
is. -/
def wellFormedDb (db : SendersDb) : Bool :=
  db.senders.all rowRefOk && db.senders_static.all rowRefOk

/-- The action the amended C4 predicts: the first non-empty action among
the dynamic then the static `(sender,'E')` rows, else `"unknown"`. -/
def mergedActionSpec (dynRow statRow : Option SendersRow) : String :=
  match dynRow, statRow with
  | some d, some t =>
    if d.action ≠ "" then d.action else if t.action ≠ "" then t.action else "unknown"
  | some d, none => if d.action ≠ "" then d.action else "unknown"
  | none, some t => if t.action ≠ "" then t.action else "unknown"
  | none, none => "unknown"

/-- Membership in a returned refs value: only list-shaped refs carry
members. -/
def refHas (r : Option PyRefs) (x : String) : Bool :=
  match r with
  | some (.vlist l) => l.contains x
  | _ => false

/-- The amended C8 normalizer, phrased as the claim's amendment: strip
whitespace; when the string contains `<`, keep what follows the last `<`
(computed here by a left fold that restarts at every `<`) truncated at
the first `>`; otherwise the stripped string truncated at its first
`>`. -/
def cleanup_mail_amended_spec (email : String) : String :=
  let t := pyStrip email
  if t.data.contains '<' then
    ⟨(t.data.foldl (fun acc c => if c = '<' then [] else acc ++ [c]) []).takeWhile
      fun c => c ≠ '>'⟩
  else
    ⟨t.data.takeWhile fun c => c ≠ '>'⟩

end Postconfirm

namespace Postconfirm

/-!
Helper lemmas.
-/

/-- Case-insensitive literal matching strips an exact copy of the
pattern. -/
theorem stripLitCI_self_append (p cs : List Char) : stripLitCI p (p ++ cs) = some cs := by
  induction p with
  | nil => rfl
  | cons c ps ih => simp [stripLitCI, ih]

/-- `takeWhile` keeps a list all of whose elements satisfy the
predicate. -/
theorem takeWhile_eq_self_of_all {p : Char → Bool} :
    ∀ l : List Char, l.all p = true → l.takeWhile p = l := by
  intro l h
  induction l with
  | nil => rfl
  | cons c cs ih =>
    simp only [List.all_cons, Bool.and_eq_true] at h
    rw [List.takeWhile_cons_of_pos h.1, ih h.2]

/-- A lowercase hex character is in the ignore-case hex class. -/
theorem isHexCI_of_isLowerHex {c : Char} (h : isLowerHex c = true) : isHexCI c = true := by
  simp only [isLowerHex, Bool.or_eq_true] at h
  simp only [isHexCI, Bool.or_eq_true]
  tauto

/-- `takeWhile` walks through an entirely satisfying left part. -/
theorem takeWhile_append_all {p : Char → Bool} :
    ∀ (l ys : List Char), (∀ x ∈ l, p x = true) →
      (l ++ ys).takeWhile p = l ++ ys.takeWhile p := by
  intro l ys h
  induction l with
  | nil => rfl
  | cons a as ih =>
    have ha : p a = true := h a (by simp)
    simp only [List.cons_append, List.takeWhile_cons, ha, if_true]
    rw [ih fun x hx => h x (by simp [hx])]

/-- `takeWhile` never reaches the right part when the left part contains
a failing element. -/
theorem takeWhile_append_stop {p : Char → Bool} :
    ∀ (l ys : List Char), (∃ x ∈ l, p x = false) →
      (l ++ ys).takeWhile p = l.takeWhile p := by
  intro l ys h
  induction l with
  | nil => obtain ⟨x, hx, _⟩ := h; exact absurd hx (List.not_mem_nil x)
  | cons a as ih =>
    by_cases ha : p a = true
    · simp only [List.cons_append, List.takeWhile_cons, ha, if_true]
      obtain ⟨x, hx, hpx⟩ := h
      rcases List.mem_cons.mp hx with rfl | hx'
      · exact absurd ha (by simp [hpx])
      · rw [ih ⟨x, hx', hpx⟩]
    · have ha' : p a = false := by revert ha; cases p a <;> simp
      simp only [List.cons_append, List.takeWhile_cons, ha', if_false]
      simp

/-- The left fold that restarts at every `<` computes the segment after
the last `<`. -/
theorem foldl_afterLast (l : List Char) :
    ∀ acc, l.foldl (fun acc c => if c = '<' then [] else acc ++ [c]) acc =
      if l.contains '<' then (l.reverse.takeWhile fun c => c ≠ '<').reverse
      else acc ++ l := by
  induction l with
  | nil => intro acc; simp
  | cons c cs ih =>
    intro acc
    simp only [List.foldl_cons]
    by_cases hc : c = '<'
    · subst hc
      rw [if_pos rfl, ih []]
      have hcont : ('<' :: cs).contains '<' = true := by simp [List.contains_cons]
      rw [hcont, if_pos rfl]
      by_cases h2 : cs.contains '<'
      · rw [if_pos h2]
        have hmem : '<' ∈ cs := List.elem_iff.mp h2
        have he : (('<' :: cs).reverse.takeWhile fun c => c ≠ '<') =
            (cs.reverse.takeWhile fun c => c ≠ '<') := by
          rw [List.reverse_cons]
          exact takeWhile_append_stop cs.reverse ['<']
            ⟨'<', List.mem_reverse.mpr hmem, by simp⟩
        rw [he]
      · rw [if_neg h2]
        have hmem : '<' ∉ cs := fun hm => h2 (List.elem_iff.mpr hm)
        have he : (('<' :: cs).reverse.takeWhile fun c => c ≠ '<') = cs.reverse := by
          rw [List.reverse_cons]
          rw [takeWhile_append_all cs.reverse ['<']
            (fun x hx => by
              simp only [decide_eq_true_eq]
              intro hxe
              exact hmem (hxe ▸ List.mem_reverse.mp hx))]
          simp
        rw [he, List.reverse_reverse]
        simp
    · rw [if_neg hc, ih (acc ++ [c])]
      have hcont : (c :: cs).contains '<' = cs.contains '<' := by
        simp [List.contains_cons, Ne.symm hc]
      rw [hcont]
      by_cases h2 : cs.contains '<'
      · rw [if_pos h2, if_pos h2]
        have hmem : '<' ∈ cs := List.elem_iff.mp h2
        have he : ((c :: cs).reverse.takeWhile fun c => c ≠ '<') =
            (cs.reverse.takeWhile fun c => c ≠ '<') := by
          rw [List.reverse_cons]
          exact takeWhile_append_stop cs.reverse [c]
            ⟨'<', List.mem_reverse.mpr hmem, by simp⟩
        rw [he]
      · rw [if_neg h2, if_neg h2]
        simp

/-- A consumer that pulls at least as many times as there are selected
rows receives every row's decoded pair, in order. -/
theorem genRun_yields_all :
    ∀ (items : List (StashTag × StashRow)) (pending : Option (StashTag × Nat)) (b : Nat)
      (db : StashDb),
      (∀ x ∈ items, (jsonLoads x.2.recipients).isSome = true) →
      items.length ≤ b →
      (genRun items pending b db).1 = items.map fun x => toYieldRow x.2 := by
  intro items
  induction items with
  | nil => intro pending b db _ _; cases b <;> rfl
  | cons x rest ih =>
    intro pending b db hp hb
    cases b with
    | zero => simp at hb
    | succ b' =>
      obtain ⟨tag, r⟩ := x
      have hx : (jsonLoads r.recipients).isSome = true := hp (tag, r) (by simp)
      obtain ⟨v, hv⟩ := Option.isSome_iff_exists.mp hx
      have hrest : rest.length ≤ b' := by simpa using hb
      simp only [genRun, hv]
      rw [ih (some (tag, r.id)) b' (applyDel db pending)
        (fun y hy => hp y (by simp [hy])) hrest]
      simp [toYieldRow, hv]

/-- A delete whose target differs from a row's id leaves the row in its
table. -/
theorem applyDel_mem {tg : StashTag} {db : StashDb} {r : StashRow}
    (hr : r ∈ tableOf tg db) (pending : Option (StashTag × Nat))
    (hne : pending ≠ some (tg, r.id)) : r ∈ tableOf tg (applyDel db pending) := by
  match pending with
  | none => exact hr
  | some (tg', i) =>
    cases tg <;> cases tg' <;>
      simp_all [tableOf, applyDel, List.mem_filter] <;>
      omega

/-- Any row the generator run removed from a stash table corresponds to
an item whose decoded pair was yielded to the consumer (or to the delete
that was already pending when the run started). -/
theorem genRun_delete_was_yielded {tg : StashTag} :
    ∀ (items : List (StashTag × StashRow)) (pending : Option (StashTag × Nat)) (b : Nat)
      (db : StashDb) (r : StashRow),
      r ∈ tableOf tg db →
      r ∉ tableOf tg (genRun items pending b db).2 →
      pending = some (tg, r.id) ∨
        ∃ x ∈ items, x.1 = tg ∧ x.2.id = r.id ∧ toYieldRow x.2 ∈ (genRun items pending b db).1 := by
  intro items
  induction items with
  | nil =>
    intro pending b db r hin hout
    by_cases hp : pending = some (tg, r.id)
    · exact Or.inl hp
    · exfalso
      apply hout
      cases b with
      | zero => exact hin
      | succ b' => exact applyDel_mem hin pending hp
  | cons x rest ih =>
    intro pending b db r hin hout
    by_cases hp : pending = some (tg, r.id)
    · exact Or.inl hp
    · cases b with
      | zero => exact absurd hin hout
      | succ b' =>
        obtain ⟨tag, row⟩ := x
        have hin1 : r ∈ tableOf tg (applyDel db pending) := applyDel_mem hin pending hp
        cases hv : jsonLoads row.recipients with
        | none =>
          exfalso
          apply hout
          simpa [genRun, hv] using hin1
        | some v =>
          have hout2 : r ∉ tableOf tg (genRun rest (some (tag, row.id)) b' (applyDel db pending)).2 := by
            intro hmem
            apply hout
            simpa [genRun, hv] using hmem
          rcases ih (some (tag, row.id)) b' (applyDel db pending) r hin1 hout2 with hpe | ⟨y, hy, hyt, hyid, hyin⟩
          · right
            have hpair : (tag, row.id) = (tg, r.id) := by
              injection hpe
            have htag : tag = tg := congrArg Prod.fst hpair
            have hid : row.id = r.id := congrArg Prod.snd hpair
            refine ⟨(tag, row), by simp, htag, hid, ?_⟩
            simp [genRun, hv, toYieldRow]
          · right
            refine ⟨y, by simp [hy], hyt, hyid, ?_⟩
            simp only [genRun, hv]
            simp only [List.mem_cons]
            right
            convert hyin using 2

end Postconfirm

namespace Postconfirm

/-!
Claim theorems.
-/

/-- C1: the claim states that `message_should_be_dropped` returns
`drop=true` iff some configured predicate fires (a `Precedence` value
matching the bulk regex, or an `Auto-Submitted` value matching
`^auto-`). Evaluating the embedded function shows the code's polarity is
the exact inverse: a firing `Precedence: bulk` header makes it return
`False`, and a header list on which no predicate fires makes it return
`True`. -/
theorem C1_drop_filter_inverted :
    message_should_be_dropped [("Precedence", " bulk")] = false ∧
    message_should_be_dropped [("Auto-Submitted", "auto-replied")] = false ∧
    message_should_be_dropped [] = true := by decide

/-- C2: the claim states that `handle` terminates without raising and
returns one of ACCEPT, REJECT, DISCARD. The embedded `handle` instead
reaches line 196, where the missing `await` on `extract_headers` makes
tuple-unpacking raise `TypeError` on every session input. -/
theorem C2_handle_always_raises (envelopeFrom : String) (envelopeRecipients : List String) :
    handle envelopeFrom envelopeRecipients = Except.error PyErr.typeError := rfl

/-- C3 counterexample: the claimed round trip
`get_challenge_reference_from_subject (get_challenge_subject r) = r`
fails at the hex reference `"ab12"`, because the emitted subject starts
with a space while the recognition regex is anchored at the start. -/
theorem C3_roundtrip_counterexample :
    get_challenge_reference_from_subject (get_challenge_subject "ab12") = none ∧
    get_challenge_reference_from_subject (get_challenge_subject "ab12") ≠ some "ab12" := by
  decide

/-- C3 amended: for a non-empty lowercase-hex reference, extracting from
the leading-whitespace-trimmed formatted subject (the trim the milter
applies to every `Subject` header before this function sees it) returns
the reference. -/
theorem C3_roundtrip_after_lstrip (r : String) (h1 : r.data ≠ [])
    (h2 : r.data.all isLowerHex = true) :
    get_challenge_reference_from_subject (pyLstrip (get_challenge_subject r)) = some r := by
  have hdata : (pyLstrip (get_challenge_subject r)).data = "Confirm: ::".data ++ r.data := by
    show ((" Confirm: ::" ++ r).data.dropWhile isPySpace) = _
    rw [String.data_append]
    have e1 : " Confirm: ::".data = ' ' :: 'C' :: "onfirm: ::".data := by decide
    have e2 : "Confirm: ::".data = 'C' :: "onfirm: ::".data := by decide
    rw [e1, e2, List.cons_append, List.cons_append,
      List.dropWhile_cons_of_pos (by decide : isPySpace ' ' = true),
      List.dropWhile_cons_of_neg (by decide : ¬ isPySpace 'C' = true)]
  show (match stripLitCI "Confirm: ::".data (pyLstrip (get_challenge_subject r)).data with
    | none => none
    | some rest =>
      let hexRun := rest.takeWhile isHexCI
      if hexRun.isEmpty then none else some ⟨hexRun⟩) = some r
  rw [hdata, stripLitCI_self_append]
  have htw : r.data.takeWhile isHexCI = r.data := by
    apply takeWhile_eq_self_of_all
    simp only [List.all_eq_true] at h2 ⊢
    exact fun c hc => isHexCI_of_isLowerHex (h2 c hc)
  simp only [htw]
  have hne : r.data.isEmpty = false := by
    cases hr : r.data with
    | nil => exact absurd hr h1
    | cons a l => rfl
  simp [hne]

/-- C3 amended theorem instantiated at the reference `"ab12"`. -/
theorem C3_roundtrip_after_lstrip_witness :
    ("ab12" : String).data ≠ [] ∧ ("ab12" : String).data.all isLowerHex = true ∧
    get_challenge_reference_from_subject (pyLstrip (get_challenge_subject "ab12")) =
      some "ab12" :=
  ⟨by decide, by decide, C3_roundtrip_after_lstrip "ab12" (by decide) (by decide)⟩

/-- C7: evaluating `send_challenge` at a challenge emission shows the
headers the claim describes (`From` the first challenge recipient, `To`
the sender, `Subject` the formatted challenge subject, the rendered
template as body) — but the relayer invocation consists of exactly the
two positional arguments `[sender.email]` and the raw message, so under
the relayer contract `sendmail(envelope_from, recipients, raw_message)`
(the form `release_messages` uses) no recipient list is passed at all. -/
theorem C7_send_challenge_two_arg_call :
    send_challenge "alice@x" ["list@y"] "abc" "BODY" =
      some ⟨["alice@x"], "From: list@y\nTo: alice@x\nSubject: Confirm: ::abc\n\nBODY"⟩ := by
  decide

/-- C8 counterexample: on the input `"a>b"` (stripped form `"a>b"`,
containing no bracketed part) the claim says `cleanup_mail` returns the
stripped input unchanged, but the code returns only `"a"`: group 2 of
the regex stops at the first `>` even when no `<...>` is present. -/
theorem C8_cleanup_counterexample :
    cleanup_mail "a>b" = "a" ∧ cleanup_mail "a>b" ≠ "a>b" := by decide

end Postconfirm
namespace Postconfirm

/-- A list without `<` contributes no group-1 alternatives. -/
theorem restsAfterLt_eq_nil : ∀ {cs : List Char}, '<' ∉ cs → restsAfterLt cs = [] := by
  intro cs
  induction cs with
  | nil => intro _; rfl
  | cons c cs ih =>
    intro h
    have hc : ¬ c = '<' := fun he => h (by rw [he]; exact List.mem_cons_self _ _)
    by_cases hn : c = '\n'
    · simp only [restsAfterLt, if_pos hn]
    · simp only [restsAfterLt, if_neg hn, if_neg hc]
      exact ih fun hm => h (List.mem_cons_of_mem c hm)

/-- On newline-free text the regex tail attempt always succeeds, with
group 2 the leading run of non-`>` characters. -/
theorem regexAttempt_of_no_newline {rest : List Char} (h : '\n' ∉ rest) :
    regexAttempt rest = some (rest.takeWhile fun c => c ≠ '>') := by
  unfold regexAttempt
  cases hd : rest.dropWhile (fun c => c ≠ '>') with
  | nil => rfl
  | cons x r =>
    have hr : '\n' ∉ r := by
      intro hm
      have hmem : '\n' ∈ rest.dropWhile (fun c => c ≠ '>') := by
        rw [hd]
        exact List.mem_cons_of_mem x hm
      exact h (List.Sublist.mem hmem (List.dropWhile_sublist _))
    show (if '\n' ∈ r then none else some (rest.takeWhile fun c => c ≠ '>')) =
      some (rest.takeWhile fun c => c ≠ '>')
    rw [if_neg hr]

/-- On newline-free text containing a `<`, the first group-1 alternative
the engine tries is the suffix after the last `<`. -/
theorem restsAfterLt_head : ∀ (cs : List Char), '\n' ∉ cs → '<' ∈ cs →
    ∃ tl, restsAfterLt cs = ((cs.reverse.takeWhile fun c => c ≠ '<').reverse) :: tl := by
  intro cs
  induction cs with
  | nil => intro _ hlt; exact absurd hlt (List.not_mem_nil _)
  | cons c cs ih =>
    intro hn hlt
    have hcn : ¬ c = '\n' := fun he => hn (by rw [he]; exact List.mem_cons_self _ _)
    have hn' : '\n' ∉ cs := fun hm => hn (List.mem_cons_of_mem c hm)
    by_cases hcs : '<' ∈ cs
    · obtain ⟨tl, htl⟩ := ih hn' hcs
      have hA : ((c :: cs).reverse.takeWhile fun x => x ≠ '<') =
          (cs.reverse.takeWhile fun x => x ≠ '<') := by
        rw [List.reverse_cons]
        exact takeWhile_append_stop cs.reverse [c]
          ⟨'<', List.mem_reverse.mpr hcs, by simp⟩
      rw [hA]
      by_cases hc : c = '<'
      · simp only [restsAfterLt, if_neg hcn, if_pos hc, htl]
        exact ⟨tl ++ [cs], by rw [List.cons_append]⟩
      · simp only [restsAfterLt, if_neg hcn, if_neg hc, htl]
        exact ⟨tl, rfl⟩
    · have hc : c = '<' := by
        rcases List.mem_cons.mp hlt with h | h
        · exact h.symm
        · exact absurd h hcs
      subst hc
      have hA : (('<' :: cs).reverse.takeWhile fun x => x ≠ '<').reverse = cs := by
        rw [List.reverse_cons]
        rw [takeWhile_append_all cs.reverse ['<']
          (fun x hx => by
            simp only [decide_eq_true_eq]
            intro hxe
            exact hcs (hxe ▸ List.mem_reverse.mp hx))]
        simp
      rw [hA]
      simp only [restsAfterLt, if_neg hcn, if_pos rfl, restsAfterLt_eq_nil hcs,
        List.nil_append]
      exact ⟨[], rfl⟩

/-- C8 amended: on every input whose stripped form is newline-free (as
every rfc-5321 envelope string is), `cleanup_mail` strips surrounding
whitespace and returns the run of non-`>` characters that follows the
last `<` (the whole string when no `<` occurs), so the stripped input is
returned unchanged only when it contains no `<` and no `>` before other
text. (On multi-line inputs the newline-blind `.*` can make the match
fail, in which case the original unstripped input is returned.) -/
theorem C8_cleanup_amended (email : String) (h : '\n' ∉ (pyStrip email).data) :
    cleanup_mail email = cleanup_mail_amended_spec email := by
  show (match (restsAfterLt (pyStrip email).data ++ [(pyStrip email).data]).findSome?
        regexAttempt with
      | some g2 => (⟨g2⟩ : String)
      | none => email) =
    (if (pyStrip email).data.contains '<' then
      (⟨((pyStrip email).data.foldl (fun acc c => if c = '<' then [] else acc ++ [c]) []).takeWhile
        fun c => c ≠ '>'⟩ : String)
    else ⟨(pyStrip email).data.takeWhile fun c => c ≠ '>'⟩)
  by_cases hlt : '<' ∈ (pyStrip email).data
  · have hcont : (pyStrip email).data.contains '<' = true := List.elem_iff.mpr hlt
    rw [if_pos hcont]
    obtain ⟨tl, htl⟩ := restsAfterLt_head (pyStrip email).data h hlt
    rw [htl]
    have hAn : '\n' ∉ ((pyStrip email).data.reverse.takeWhile fun c => c ≠ '<').reverse := by
      intro hm
      exact h (List.mem_reverse.mp
        (List.Sublist.mem (List.mem_reverse.mp hm) (List.takeWhile_sublist _)))
    rw [List.cons_append, List.findSome?_cons, regexAttempt_of_no_newline hAn]
    show (⟨(((pyStrip email).data.reverse.takeWhile fun c => c ≠ '<').reverse).takeWhile
        fun c => c ≠ '>'⟩ : String) = _
    congr 1
    rw [foldl_afterLast _ [], if_pos hcont]
  · have hcont : (pyStrip email).data.contains '<' = false := by
      cases hb : (pyStrip email).data.contains '<'
      · rfl
      · exact absurd (List.elem_iff.mp hb) hlt
    rw [if_neg (by rw [hcont]; exact Bool.false_ne_true)]
    rw [restsAfterLt_eq_nil hlt, List.nil_append, List.findSome?_cons,
      regexAttempt_of_no_newline h]

/-- C8 amended theorem instantiated at a bracketed address with
surrounding whitespace. -/
theorem C8_cleanup_amended_witness :
    '\n' ∉ (pyStrip " Name <a@b> ").data ∧
    cleanup_mail " Name <a@b> " = cleanup_mail_amended_spec " Name <a@b> " :=
  ⟨by decide, C8_cleanup_amended " Name <a@b> " (by decide)⟩

end Postconfirm
namespace Postconfirm

/-- C9: the claim states that `set_action_for_sender` stores the refs
column as a JSON array of strings and that `_extract_refs` decodes such
a stored value back to the reference as a list. Evaluating the embedded
code at the reference `"abc123"`: the stored column text is
`json.dumps("abc123") = "\x22abc123\x22"` — a JSON string, not an array —
and `_extract_refs` maps it to the bare Python string `"abc123"`, not to
the list `["abc123"]` (contradicting its own `Optional[list[str]]`
annotation). -/
theorem C9_encode_not_array :
    set_action_for_sender [] "bob@x" "confirm" "abc123" DbOutcome.ok =
      (true, [⟨"bob@x", "E", "confirm", some (jsonDumpsStr "abc123")⟩]) ∧
    jsonDumpsStr "abc123" = "\"abc123\"" ∧
    _extract_refs (jsonDumpsStr "abc123") = some (PyRefs.vstr "abc123") ∧
    some (PyRefs.vstr "abc123") ≠ some (PyRefs.vlist ["abc123"]) := by decide

/-- C10: when the execute or the commit inside `set_action_for_sender`
raises, the `except Exception` handler returns `False` and the
transaction is never committed, so the senders table is exactly what it
was: no exception escapes to the caller. -/
theorem C10_set_action_error_atomic (tbl : List SendersRow) (sender action ref : String)
    (out : DbOutcome) (h : out ≠ DbOutcome.ok) :
    set_action_for_sender tbl sender action ref out = (false, tbl) := by
  cases out with
  | ok => exact absurd rfl h
  | raiseExec => rfl
  | raiseCommit => rfl

/-- C10 theorem instantiated at a failing execute over a one-row table. -/
theorem C10_set_action_error_atomic_witness :
    DbOutcome.raiseExec ≠ DbOutcome.ok ∧
    set_action_for_sender [⟨"old@x", "E", "accept", none⟩] "bob@x" "confirm" "abc"
        DbOutcome.raiseExec =
      (false, [⟨"old@x", "E", "accept", none⟩]) :=
  ⟨by decide,
    C10_set_action_error_atomic [⟨"old@x", "E", "accept", none⟩] "bob@x" "confirm" "abc"
      DbOutcome.raiseExec (by decide)⟩

end Postconfirm

namespace Postconfirm

/-- C5 counterexample: the stash SELECTs carry no ORDER BY, so the
database may return the matching rows in any order; with two dynamic
rows (ids 1 and 2, created in that order) returned reversed — a
permutation of the selection, hence a legal query result — the stream
yields row 2's message before row 1's, violating the claimed FIFO order
with ties broken by insertion id. -/
theorem C5_fifo_counterexample :
    [⟨2, "s", "[\"b\"]", "m2"⟩, ⟨1, "s", "[\"a\"]", "m1"⟩].Perm
      (stashSelect (StashDb.mk [⟨1, "s", "[\"a\"]", "m1"⟩, ⟨2, "s", "[\"b\"]", "m2"⟩] []).stash "s") ∧
    (unstash_messages_for_sender ⟨[⟨1, "s", "[\"a\"]", "m1"⟩, ⟨2, "s", "[\"b\"]", "m2"⟩], []⟩
        [⟨2, "s", "[\"b\"]", "m2"⟩, ⟨1, "s", "[\"a\"]", "m1"⟩] [] 5).1 =
      [(JVal.jarr ["b"], "m2"), (JVal.jarr ["a"], "m1")] ∧
    [(JVal.jarr ["b"], "m2"), (JVal.jarr ["a"], "m1")] ≠
      [(JVal.jarr ["a"], "m1"), (JVal.jarr ["b"], "m2")] := by decide

/-- C5 amended: a consumer that drains the stream receives every dynamic
stash entry before any static stash entry; within each table the entries
come in whatever order the database returned them (the queries have no
ORDER BY), not necessarily FIFO by creation time. -/
theorem C5_dynamic_before_static (db : StashDb) (s : String) (dynSel statSel : List StashRow)
    (n : Nat)
    (_hdyn : dynSel.Perm (stashSelect db.stash s))
    (_hstat : statSel.Perm (stashSelect db.stash_static s))
    (hp : ∀ r ∈ dynSel ++ statSel, (jsonLoads r.recipients).isSome = true)
    (hn : dynSel.length + statSel.length ≤ n) :
    (unstash_messages_for_sender db dynSel statSel n).1 =
      dynSel.map toYieldRow ++ statSel.map toYieldRow := by
  unfold unstash_messages_for_sender
  rw [genRun_yields_all]
  · simp only [List.map_append, List.map_map]
    rfl
  · intro x hx
    rcases List.mem_append.mp hx with hm | hm
    · obtain ⟨r, hr, he⟩ := List.mem_map.mp hm
      rw [← he]
      exact hp r (List.mem_append.mpr (Or.inl hr))
    · obtain ⟨r, hr, he⟩ := List.mem_map.mp hm
      rw [← he]
      exact hp r (List.mem_append.mpr (Or.inr hr))
  · simpa using hn

/-- C5 amended theorem instantiated: one dynamic and one static entry,
drained in two pulls, yield dynamic-then-static. -/
theorem C5_dynamic_before_static_witness :
    ([⟨1, "s", "[\"a\"]", "m1"⟩] : List StashRow).Perm
      (stashSelect (StashDb.mk [⟨1, "s", "[\"a\"]", "m1"⟩] [⟨7, "s", "[\"c\"]", "m7"⟩]).stash "s") ∧
    ([⟨7, "s", "[\"c\"]", "m7"⟩] : List StashRow).Perm
      (stashSelect (StashDb.mk [⟨1, "s", "[\"a\"]", "m1"⟩] [⟨7, "s", "[\"c\"]", "m7"⟩]).stash_static "s") ∧
    (∀ r ∈ ([⟨1, "s", "[\"a\"]", "m1"⟩] ++ [⟨7, "s", "[\"c\"]", "m7"⟩] : List StashRow),
      (jsonLoads r.recipients).isSome = true) ∧
    (unstash_messages_for_sender ⟨[⟨1, "s", "[\"a\"]", "m1"⟩], [⟨7, "s", "[\"c\"]", "m7"⟩]⟩
        [⟨1, "s", "[\"a\"]", "m1"⟩] [⟨7, "s", "[\"c\"]", "m7"⟩] 2).1 =
      [⟨1, "s", "[\"a\"]", "m1"⟩].map toYieldRow ++ [⟨7, "s", "[\"c\"]", "m7"⟩].map toYieldRow :=
  ⟨by decide, by decide, by decide,
    C5_dynamic_before_static ⟨[⟨1, "s", "[\"a\"]", "m1"⟩], [⟨7, "s", "[\"c\"]", "m7"⟩]⟩ "s"
      [⟨1, "s", "[\"a\"]", "m1"⟩] [⟨7, "s", "[\"c\"]", "m7"⟩] 2
      (by decide) (by decide) (by decide) (by decide)⟩

/-- C6: a stash row (of either table) that is gone after the consumer
stopped pulling was yielded to the consumer first; contrapositively, any
entry the stream did not yield — for instance because a relayer failure
ended the iteration — is still in its stash table. The select lists may
come back from the database in any order; row ids are unique per table
as the schema's primary key guarantees. -/
theorem C6_delete_only_after_yield (db : StashDb) (dynSel statSel : List StashRow)
    (n : Nat) (r : StashRow)
    (hdsub : ∀ x ∈ dynSel, x ∈ db.stash)
    (hssub : ∀ x ∈ statSel, x ∈ db.stash_static)
    (hid1 : (db.stash.map StashRow.id).Nodup)
    (hid2 : (db.stash_static.map StashRow.id).Nodup) :
    (r ∈ db.stash → r ∉ (unstash_messages_for_sender db dynSel statSel n).2.stash →
      toYieldRow r ∈ (unstash_messages_for_sender db dynSel statSel n).1) ∧
    (r ∈ db.stash_static → r ∉ (unstash_messages_for_sender db dynSel statSel n).2.stash_static →
      toYieldRow r ∈ (unstash_messages_for_sender db dynSel statSel n).1) := by
  constructor
  · intro hin hout
    have hres := @genRun_delete_was_yielded StashTag.dyn
      ((dynSel.map fun r => (StashTag.dyn, r)) ++ (statSel.map fun r => (StashTag.stat, r)))
      none n db r hin hout
    rcases hres with hpe | ⟨x, hx, hxt, hxid, hyin⟩
    · exact absurd hpe (by simp)
    · have hxd : x.2 ∈ dynSel := by
        rcases List.mem_append.mp hx with hm | hm
        · obtain ⟨y, hy, he⟩ := List.mem_map.mp hm
          rw [← he]; exact hy
        · obtain ⟨y, hy, he⟩ := List.mem_map.mp hm
          rw [← he] at hxt
          simp at hxt
      have hxmem : x.2 ∈ db.stash := hdsub x.2 hxd
      have heq : x.2 = r := List.inj_on_of_nodup_map hid1 hxmem hin hxid
      rw [← heq]
      exact hyin
  · intro hin hout
    have hres := @genRun_delete_was_yielded StashTag.stat
      ((dynSel.map fun r => (StashTag.dyn, r)) ++ (statSel.map fun r => (StashTag.stat, r)))
      none n db r hin hout
    rcases hres with hpe | ⟨x, hx, hxt, hxid, hyin⟩
    · exact absurd hpe (by simp)
    · have hxd : x.2 ∈ statSel := by
        rcases List.mem_append.mp hx with hm | hm
        · obtain ⟨y, hy, he⟩ := List.mem_map.mp hm
          rw [← he] at hxt
          simp at hxt
        · obtain ⟨y, hy, he⟩ := List.mem_map.mp hm
          rw [← he]; exact hy
      have hxmem : x.2 ∈ db.stash_static := hssub x.2 hxd
      have heq : x.2 = r := List.inj_on_of_nodup_map hid2 hxmem hin hxid
      rw [← heq]
      exact hyin

/-- C6 theorem instantiated: two dynamic rows, two pulls; row 1 was
deleted and indeed its decoded pair was yielded. -/
theorem C6_delete_only_after_yield_witness :
    (∀ x ∈ ([⟨1, "s", "[\"a\"]", "m1"⟩, ⟨2, "s", "[\"b\"]", "m2"⟩] : List StashRow),
      x ∈ (StashDb.mk [⟨1, "s", "[\"a\"]", "m1"⟩, ⟨2, "s", "[\"b\"]", "m2"⟩] []).stash) ∧
    toYieldRow ⟨1, "s", "[\"a\"]", "m1"⟩ ∈
      (unstash_messages_for_sender ⟨[⟨1, "s", "[\"a\"]", "m1"⟩, ⟨2, "s", "[\"b\"]", "m2"⟩], []⟩
        [⟨1, "s", "[\"a\"]", "m1"⟩, ⟨2, "s", "[\"b\"]", "m2"⟩] [] 2).1 :=
  ⟨by decide,
    (C6_delete_only_after_yield ⟨[⟨1, "s", "[\"a\"]", "m1"⟩, ⟨2, "s", "[\"b\"]", "m2"⟩], []⟩
      [⟨1, "s", "[\"a\"]", "m1"⟩, ⟨2, "s", "[\"b\"]", "m2"⟩] [] 2 ⟨1, "s", "[\"a\"]", "m1"⟩
      (by decide) (by decide) (by decide) (by decide)).1 (by decide) (by decide)⟩

end Postconfirm

namespace Postconfirm

/-- A well-formed non-empty ref column decodes to the list of references
it denotes. -/
theorem extract_refs_wf {t : String} (ht : ¬ t = "") (hok : refColOk t = true) :
    _extract_refs t = some (.vlist (decodeTextRefs t)) := by
  cases hj : jsonLoads t with
  | none =>
    simp [_extract_refs, decodeTextRefs, hj, ht]
  | some v =>
    cases v with
    | jarr xs => simp [_extract_refs, decodeTextRefs, hj, jvalToRefs]
    | jnull => simp [refColOk, hj] at hok
    | jbool b => simp [refColOk, hj] at hok
    | jnum z => simp [refColOk, hj] at hok
    | jstr s => simp [refColOk, hj] at hok

/-- Membership in the canonicalized set union produced at the refs-merge
point. -/
theorem refHas_union_iff {l1 l2 : List String} (x : String) :
    refHas (some (.vlist (l1.dedup.union l2.dedup))) x = true ↔ x ∈ l1 ∨ x ∈ l2 := by
  have hu : l1.dedup.union l2.dedup = l1.dedup ∪ l2.dedup := rfl
  simp [refHas, List.contains, List.elem_iff, hu, List.mem_union_iff, List.mem_dedup]

/-- The refs a well-formed row contributes: either nothing (NULL, empty,
or JSON-null column) or the decoded list. -/
theorem rowRefs_char (row : SendersRow) (hok : rowRefOk row = true) :
    ((if colTruthy row.ref then _extract_refs (row.ref.getD "") else none) = none ∧
      decodeRefsList (some row) = []) ∨
    (∃ l, (if colTruthy row.ref then _extract_refs (row.ref.getD "") else none) =
        some (.vlist l) ∧ decodeRefsList (some row) = l) := by
  cases hr : row.ref with
  | none => left; exact ⟨by simp [colTruthy], by simp [decodeRefsList, hr]⟩
  | some t =>
    by_cases ht : t = ""
    · left
      constructor
      · simp [colTruthy, ht]
      · simp [decodeRefsList, hr, ht]
    · right
      have hok' : refColOk t = true := by
        rw [rowRefOk, hr] at hok
        simpa [ht] using hok
      refine ⟨decodeTextRefs t, ?_, ?_⟩
      · simp [colTruthy, ht, extract_refs_wf ht hok']
      · simp [decodeRefsList, hr, ht]

/-- Membership in a list-shaped refs value. -/
theorem refHas_vlist_iff {l : List String} (x : String) :
    refHas (some (.vlist l)) x = true ↔ x ∈ l := by
  simp [refHas, List.contains, List.elem_iff]

/-- An absent row contributes no refs. -/
theorem decodeRefsList_none : decodeRefsList none = [] := rfl

/-- C4 counterexample: with no exact record for the sender but a pattern
row whose regex matches it (action `accept`), the claim predicts the
pattern-match result, but `get_action_for_sender` never consults
patterns and returns `unknown`. -/
theorem C4_pattern_fallback_counterexample :
    get_action_for_sender ⟨[⟨"bob@x", "P", "accept", none⟩], []⟩ "bob@x" =
      Except.ok ("unknown", none) ∧
    get_action_claimed_spec ⟨[⟨"bob@x", "P", "accept", none⟩], []⟩ "bob@x" = ("accept", []) ∧
    ("unknown" : String) ≠ "accept" := by decide

/-- C4 amended: over a well-formed store (every ref column NULL, empty,
a JSON array of strings, or a legacy bare hex token), the returned
action is the first non-empty action among the dynamic then the static
`(sender,'E')` rows, else `unknown` — patterns are not consulted — and
no exception is raised; the returned refs hold exactly the union of the
decoded dynamic and static refs. -/
theorem C4_two_layer_merge_amended (db : SendersDb) (sender : String)
    (h : wellFormedDb db = true) :
    ∃ refs, get_action_for_sender db sender =
        Except.ok (mergedActionSpec (fetchoneE db.senders sender)
          (fetchoneE db.senders_static sender), refs) ∧
      ∀ x, refHas refs x = true ↔
        (x ∈ decodeRefsList (fetchoneE db.senders sender) ∨
         x ∈ decodeRefsList (fetchoneE db.senders_static sender)) := by
  obtain ⟨h1, h2⟩ : db.senders.all rowRefOk = true ∧ db.senders_static.all rowRefOk = true := by
    simpa [wellFormedDb, Bool.and_eq_true] using h
  rw [List.all_eq_true] at h1 h2
  cases hd : fetchoneE db.senders sender with
  | none =>
    cases hs : fetchoneE db.senders_static sender with
    | none =>
      refine ⟨none, ?_, ?_⟩
      · simp [get_action_for_sender, hd, hs, mergedActionSpec]
      · intro x
        simp [refHas, decodeRefsList_none]
    | some srow =>
      have hsok : rowRefOk srow = true := h2 srow (List.mem_of_find?_eq_some hs)
      rcases rowRefs_char srow hsok with ⟨hnone, hdec⟩ | ⟨l, hsome, hdec⟩
      · by_cases hct : colTruthy srow.ref
        · rw [if_pos hct] at hnone
          refine ⟨none, ?_, ?_⟩
          · by_cases hsa : srow.action = "" <;>
              simp [get_action_for_sender, hd, hs, hct, hnone, mergedActionSpec, hsa]
          · intro x
            simp [refHas, decodeRefsList_none, hdec]
        · rw [if_neg hct] at hnone
          refine ⟨none, ?_, ?_⟩
          · by_cases hsa : srow.action = "" <;>
              simp [get_action_for_sender, hd, hs, hct, mergedActionSpec, hsa]
          · intro x
            simp [refHas, decodeRefsList_none, hdec]
      · by_cases hct : colTruthy srow.ref
        · rw [if_pos hct] at hsome
          refine ⟨some (.vlist l), ?_, ?_⟩
          · by_cases hsa : srow.action = "" <;>
              simp [get_action_for_sender, hd, hs, hct, hsome, mergedActionSpec, hsa]
          · intro x
            simp [refHas_vlist_iff, decodeRefsList_none, hdec]
        · rw [if_neg hct] at hsome
          exact absurd hsome (by simp)
  | some drow =>
    have hdok : rowRefOk drow = true := h1 drow (List.mem_of_find?_eq_some hd)
    cases hs : fetchoneE db.senders_static sender with
    | none =>
      rcases rowRefs_char drow hdok with ⟨hnone, hdec⟩ | ⟨l, hsome, hdec⟩
      · refine ⟨none, ?_, ?_⟩
        · by_cases hda : drow.action = "" <;>
            simp [get_action_for_sender, hd, hs, hnone, mergedActionSpec, hda]
        · intro x
          simp [refHas, decodeRefsList_none, hdec]
      · refine ⟨some (.vlist l), ?_, ?_⟩
        · by_cases hda : drow.action = "" <;>
            simp [get_action_for_sender, hd, hs, hsome, mergedActionSpec, hda]
        · intro x
          simp [refHas_vlist_iff, decodeRefsList_none, hdec]
    | some srow =>
      have hsok : rowRefOk srow = true := h2 srow (List.mem_of_find?_eq_some hs)
      rcases rowRefs_char drow hdok with ⟨hnoneD, hdecD⟩ | ⟨l1, hsomeD, hdecD⟩ <;>
        rcases rowRefs_char srow hsok with ⟨hnoneS, hdecS⟩ | ⟨l2, hsomeS, hdecS⟩
      · by_cases hct : colTruthy srow.ref
        · rw [if_pos hct] at hnoneS
          refine ⟨none, ?_, ?_⟩
          · by_cases hda : drow.action = "" <;> by_cases hsa : srow.action = "" <;>
              simp [get_action_for_sender, hd, hs, hct, hnoneD, hnoneS, mergedActionSpec, hda, hsa]
          · intro x
            simp [refHas, decodeRefsList_none, hdecD, hdecS]
        · rw [if_neg hct] at hnoneS
          refine ⟨none, ?_, ?_⟩
          · by_cases hda : drow.action = "" <;> by_cases hsa : srow.action = "" <;>
              simp [get_action_for_sender, hd, hs, hct, hnoneD, mergedActionSpec, hda, hsa]
          · intro x
            simp [refHas, decodeRefsList_none, hdecD, hdecS]
      · by_cases hct : colTruthy srow.ref
        · rw [if_pos hct] at hsomeS
          refine ⟨some (.vlist l2), ?_, ?_⟩
          · by_cases hda : drow.action = "" <;> by_cases hsa : srow.action = "" <;>
              simp [get_action_for_sender, hd, hs, hct, hnoneD, hsomeS, mergedActionSpec, hda, hsa]
          · intro x
            simp [refHas_vlist_iff, decodeRefsList_none, hdecD, hdecS]
        · rw [if_neg hct] at hsomeS
          exact absurd hsomeS (by simp)
      · by_cases hct : colTruthy srow.ref
        · rw [if_pos hct] at hnoneS
          refine ⟨some (.vlist l1), ?_, ?_⟩
          · by_cases hda : drow.action = "" <;> by_cases hsa : srow.action = "" <;>
              simp [get_action_for_sender, hd, hs, hct, hsomeD, hnoneS, mergedActionSpec, hda, hsa]
          · intro x
            simp [refHas_vlist_iff, decodeRefsList_none, hdecD, hdecS]
        · rw [if_neg hct] at hnoneS
          refine ⟨some (.vlist l1), ?_, ?_⟩
          · by_cases hda : drow.action = "" <;> by_cases hsa : srow.action = "" <;>
              simp [get_action_for_sender, hd, hs, hct, hsomeD, mergedActionSpec, hda, hsa]
          · intro x
            simp [refHas_vlist_iff, decodeRefsList_none, hdecD, hdecS]
      · by_cases hct : colTruthy srow.ref
        · rw [if_pos hct] at hsomeS
          by_cases hl2 : l2.isEmpty
          · refine ⟨some (.vlist l1), ?_, ?_⟩
            · by_cases hda : drow.action = "" <;> by_cases hsa : srow.action = "" <;>
                simp [get_action_for_sender, hd, hs, hct, hsomeD, hsomeS, pyTruthy, hl2,
                  mergedActionSpec, hda, hsa]
            · intro x
              have hl2e : l2 = [] := List.isEmpty_iff.mp hl2
              simp [refHas_vlist_iff, decodeRefsList_none, hdecD, hdecS, hl2e]
          · refine ⟨some (.vlist (l1.dedup.union l2.dedup)), ?_, ?_⟩
            · by_cases hda : drow.action = "" <;> by_cases hsa : srow.action = "" <;>
                simp [get_action_for_sender, hd, hs, hct, hsomeD, hsomeS, pyTruthy, hl2,
                  pySetUnionRefs, pyToSet, mergedActionSpec, hda, hsa]
            · intro x
              rw [refHas_union_iff, hdecD, hdecS]
        · rw [if_neg hct] at hsomeS
          exact absurd hsomeS (by simp)

end Postconfirm

namespace Postconfirm

/-- C4 amended theorem instantiated at a store with a dynamic and a
static row for the sender, both carrying JSON-array refs. -/
theorem C4_two_layer_merge_amended_witness :
    wellFormedDb ⟨[⟨"s", "E", "confirm", some "[\"a\",\"b\"]"⟩],
        [⟨"s", "E", "accept", some "[\"b\",\"c\"]"⟩]⟩ = true ∧
    ∃ refs, get_action_for_sender ⟨[⟨"s", "E", "confirm", some "[\"a\",\"b\"]"⟩],
          [⟨"s", "E", "accept", some "[\"b\",\"c\"]"⟩]⟩ "s" =
        Except.ok (mergedActionSpec
          (fetchoneE [⟨"s", "E", "confirm", some "[\"a\",\"b\"]"⟩] "s")
          (fetchoneE [⟨"s", "E", "accept", some "[\"b\",\"c\"]"⟩] "s"), refs) ∧
      ∀ x, refHas refs x = true ↔
        (x ∈ decodeRefsList (fetchoneE [⟨"s", "E", "confirm", some "[\"a\",\"b\"]"⟩] "s") ∨
         x ∈ decodeRefsList (fetchoneE [⟨"s", "E", "accept", some "[\"b\",\"c\"]"⟩] "s")) :=
  ⟨by decide,
    C4_two_layer_merge_amended ⟨[⟨"s", "E", "confirm", some "[\"a\",\"b\"]"⟩],
      [⟨"s", "E", "accept", some "[\"b\",\"c\"]"⟩]⟩ "s" (by decide)⟩

end Postconfirm
